import Mathlib

/-!
Verification of the lyric-classification pipeline of `project5.ipynb`
(Naive Bayes classifier predicting whether a song is explicit).

Embedding conventions:
* Python strings are Lean `String`s; the Python string operations used by the
  notebook (`str.split(" ")`, `str.lower`, `" ".join`) are embedded as
  executable functions on the underlying character list, matching Python
  semantics (in particular `"a  b".split(" ") = ["a", "", "b"]` and
  `"".split(" ") = [""]`).
* Python dicts keyed by strings are association lists `List (String × ℕ)`;
  `dictInsert` models Python dict assignment (update in place if the key is
  present, append otherwise).  Keys of dicts built by the notebook are
  pairwise distinct, which we carry as `Nodup` hypotheses where needed.
* Library calls whose implementation is outside this repository
  (`sklearn.CountVectorizer`, `sklearn.train_test_split`,
  `sklearn.precision_recall_fscore_support`, `nltk` training/classification,
  the Porter stemmer and the stop-word list) are modelled from the
  specification; each such definition carries a doc comment starting with
  `Modelled from the spec:`.  The stemmer and the stop-word set are
  parameters throughout, and the trained classifier is an abstract function
  `Dict → Bool`.
* Counts are `ℕ`; metric values are `ℚ` (the notebook uses numpy floats; no
  rounding issue arises in the properties below).
-/

namespace Project5

/-- Model of Python `str.lower` (ASCII; the tokens compared against the
stop-word list in the notebook are ASCII). -/
def pyLower (s : String) : String :=
  String.mk (s.data.map Char.toLower)

/-- Splitting a character list at every character satisfying `p`, keeping
empty groups, exactly as Python `str.split(sep)` does for a one-character
separator. -/
def splitBy (p : Char → Bool) : List Char → List (List Char)
  | [] => [[]]
  | c :: rest =>
    match splitBy p rest with
    | [] => [[c]]
    | g :: gs => if p c then [] :: g :: gs else (c :: g) :: gs

/-- Model of Python `lyrics.split(" ")`: split at every single space
character, keeping empty tokens produced by consecutive spaces
(`"a  b".split(" ") = ["a", "", "b"]`, `"".split(" ") = [""]`). -/
def pySplitSpace (s : String) : List String :=
  (splitBy (fun c => c == ' ') s.data).map String.mk

/-- Model of Python `" ".join(l)`. -/
def joinSpace (l : List String) : String :=
  String.mk (List.intercalate [' '] (l.map String.data))

/-- The characters Python `str.split()` (no argument) treats as whitespace. -/
def pyIsSpace (c : Char) : Bool :=
  c == ' ' || c == '\t' || c == '\n' || c == '\r' || c == '\x0b' || c == '\x0c'

/-- Model of Python `str.split()` with no argument: split on runs of
whitespace and drop empty tokens (`"a  b".split() = ["a", "b"]`,
`"".split() = []`). -/
def pyWhitespaceSplit (s : String) : List String :=
  ((splitBy pyIsSpace s.data).filter (fun g => !g.isEmpty)).map String.mk

/-- Embedding of the per-string body of `stemLyrics` (notebook cell 5):
`lyricsList = lyrics.split(" ")`, then the comprehension
`[stemmer.stem(word) for word in lyricsList if word.lower() not in stop_words]`,
then `' '.join(...)`.  The stemmer is a parameter (the notebook uses
`PorterStemmer().stem`, an external library function). -/
def stemOne (stem : String → String) (stop_words : List String) (lyrics : String) : String :=
  let lyricsList := pySplitSpace lyrics
  let stemmedLyrics :=
    (lyricsList.filter (fun word => !(stop_words.contains (pyLower word)))).map stem
  joinSpace stemmedLyrics

/-- Embedding of `stemLyrics` (notebook cell 5): iterate over the lyric
column, appending each normalized string to `stemmedLyricsList`. -/
def stemLyrics (stem : String → String) (stop_words : List String)
    (lyricsCol : List String) : List String :=
  lyricsCol.foldl (fun acc lyrics => acc ++ [stemOne stem stop_words lyrics]) []

/-- The Text Normalizer as the spec sentence for claim C2 words it: split the
input ON WHITESPACE, drop tokens whose lower-cased form is a stop word, stem
the survivors, rejoin with single spaces. -/
def specNormalizeWhitespace (stem : String → String) (stop_words : List String)
    (s : String) : String :=
  joinSpace
    (((pyWhitespaceSplit s).filter (fun word => !(stop_words.contains (pyLower word)))).map stem)

/-- The Text Normalizer as amended for claim C2: split the input on the
single space character (so consecutive spaces yield empty tokens and
non-space whitespace is not a delimiter), drop tokens whose lower-cased form
is a stop word, stem the survivors, rejoin with single spaces. -/
def specNormalizeSpace (stem : String → String) (stop_words : List String)
    (s : String) : String :=
  joinSpace
    (((pySplitSpace s).filter (fun word => !(stop_words.contains (pyLower word)))).map stem)

lemma foldl_append_singleton {α β : Type} (f : α → β) :
    ∀ (col : List α) (acc : List β),
      col.foldl (fun a x => a ++ [f x]) acc = acc ++ col.map f
  | [], acc => by simp
  | x :: col, acc => by
    simp only [List.foldl_cons, List.map_cons, foldl_append_singleton f col (acc ++ [f x])]
    simp

/-- Claim C2, counterexample: the normalizer does not split on general
whitespace.  On the input `"a  b"` (two consecutive spaces), with an empty
stop-word set and the identity stemmer, the code keeps the empty token
between the two spaces and returns `"a  b"`, while the claimed description
returns `"a b"`. -/
theorem c2_counterexample :
    stemOne (fun s => s) [] "a  b" ≠ specNormalizeWhitespace (fun s => s) [] "a  b" := by
  decide

/-- Claim C2, amended: for every stemmer, stop-word set and lyric column, the
normalizer returns, for each input string, the string obtained by splitting
the input on the single space character, dropping every token whose
lower-cased form is a stop word, stemming the survivors, and rejoining them
with single spaces in their original relative order (the empty string being a
valid output). -/
theorem c2_normalizer_is_space_split_filter_stem_join
    (stem : String → String) (stop_words : List String) (col : List String) :
    stemLyrics stem stop_words col = col.map (specNormalizeSpace stem stop_words) := by
  unfold stemLyrics
  rw [foldl_append_singleton]
  simp [stemOne, specNormalizeSpace]

/-- Modelled from the spec: the Vectorizer tokenization, "tokenize each
string on whitespace (no further normalization)".  The notebook calls
`sklearn.CountVectorizer`, an external library whose code is not part of this
repository. -/
def tokens (s : String) : List String :=
  pyWhitespaceSplit s

/-- Modelled from the spec: the Vectorizer (`CountVectorizer.fit_transform` /
`get_feature_names_out` in cell 7, an external library call).  The vocabulary
is the list of distinct tokens across the whole collection in a fixed
deterministic (first-occurrence) order; each track gets a vector of token
counts indexed by vocabulary position. -/
def vectorize (docs : List String) : List String × List (List ℕ) :=
  let toks := docs.map tokens
  let vocab := toks.flatten.dedup
  (vocab, toks.map (fun t => vocab.map (fun w => t.count w)))

lemma sum_map_add {α : Type} (f g : α → ℕ) :
    ∀ (l : List α), (l.map (fun x => f x + g x)).sum = (l.map f).sum + (l.map g).sum
  | [] => by simp
  | x :: l => by
    simp [sum_map_add f g l]
    ring

lemma sum_map_indicator {α : Type} [DecidableEq α] (a : α) :
    ∀ (l : List α), (l.map (fun c => if a = c then 1 else 0)).sum = l.count a
  | [] => by simp
  | x :: l => by
    by_cases h : a = x
    · subst h
      simp [List.count_cons, sum_map_indicator a l, Nat.add_comm]
    · have h' : ¬(x = a) := fun e => h e.symm
      simp [List.count_cons, sum_map_indicator a l, h, h']

lemma sum_map_count {α : Type} [DecidableEq α] (V : List α) (hV : V.Nodup) :
    ∀ (t : List α), (∀ a ∈ t, a ∈ V) → (V.map (fun a => t.count a)).sum = t.length := by
  intro t
  induction t with
  | nil => simp
  | cons a t ih =>
    intro h
    have ha : a ∈ V := h a (List.mem_cons_self a t)
    have ht : ∀ x ∈ t, x ∈ V := fun x hx => h x (List.mem_cons_of_mem a hx)
    have hcc : ∀ c : α, (a :: t).count c = t.count c + (if a = c then 1 else 0) := by
      intro c
      rw [List.count_cons]
      simp [beq_iff_eq]
    have hmap : V.map (fun c => (a :: t).count c)
        = V.map (fun c => t.count c + (if a = c then 1 else 0)) :=
      List.map_congr_left (fun c _ => hcc c)
    rw [hmap, sum_map_add, sum_map_indicator, ih ht,
      List.count_eq_one_of_mem hV ha]
    simp

/-- Claim C1: for every corpus and every track position, the sum of the
entries of that track count-vector produced by the Vectorizer equals the
number of whitespace-delimited tokens of that track normalized lyric
string. -/
theorem c1_vector_sum_eq_token_count (docs : List String) (i : ℕ)
    (hi : i < docs.length) :
    ((vectorize docs).2.getD i []).sum = (tokens (docs.getD i "")).length := by
  have hlen2 : (vectorize docs).2.length = docs.length := by
    simp [vectorize]
  have hget : (vectorize docs).2.getD i []
      = ((docs.map tokens).flatten.dedup.map
          (fun w => (tokens (docs.getD i "")).count w)) := by
    rw [List.getD_eq_getElem?_getD, List.getD_eq_getElem?_getD]
    simp only [vectorize]
    rw [List.getElem?_map, List.getElem?_map, List.getElem?_eq_getElem hi]
    simp
  rw [hget]
  apply sum_map_count _ (List.nodup_dedup _)
  intro a hat
  rw [List.mem_dedup]
  apply List.mem_flatten.mpr
  refine ⟨tokens (docs.getD i ""), ?_, hat⟩
  apply List.mem_map_of_mem
  rw [List.getD_eq_getElem?_getD, List.getElem?_eq_getElem hi]
  exact List.getElem_mem hi

/-- Claim C1 witness at a concrete corpus. -/
theorem c1_vector_sum_eq_token_count_witness :
    ((vectorize ["hello world", "damn"]).2.getD 0 []).sum
      = (tokens ((["hello world", "damn"] : List String).getD 0 "")).length :=
  c1_vector_sum_eq_token_count ["hello world", "damn"] 0 (by decide)

/-- Python dicts keyed by strings, as association lists in insertion order. -/
abbrev Dict := List (String × ℕ)

/-- Model of Python dict assignment `d[k] = v`: update the entry in place if
the key is present, otherwise append a new entry at the end. -/
def dictInsert (d : Dict) (k : String) (v : ℕ) : Dict :=
  if d.any (fun kv => kv.1 == k) then
    d.map (fun kv => if kv.1 == k then (k, v) else kv)
  else d ++ [(k, v)]

/-- Model of Python dict lookup `d[k]` (the notebook only looks up keys that
are present; the default 0 is never exercised there). -/
def dictGet (d : Dict) (k : String) : ℕ :=
  ((d.find? (fun kv => kv.1 == k)).map Prod.snd).getD 0

/-- Embedding of the inner loop of cell 7:
`for j in range(len(words)): featureX[words[j]] = vec[j]`.  The zip is
faithful because the vectorizer emits exactly one count per vocabulary
word. -/
def buildFeatureMap (words : List String) (vec : List ℕ) : Dict :=
  (words.zip vec).foldl (fun d wv => dictInsert d wv.1 wv.2) []

/-- Embedding of the featuresets loop of cell 7: for each track, build the
dense feature map and append the (feature-map, label) pair. -/
def buildFeaturesets (words : List String) (vecs : List (List ℕ))
    (labels : List Bool) : List (Dict × Bool) :=
  (vecs.zip labels).foldl (fun acc vl => acc ++ [(buildFeatureMap words vl.1, vl.2)]) []

lemma dictInsert_of_not_mem (d : Dict) (k : String) (v : ℕ)
    (h : ∀ kv ∈ d, kv.1 ≠ k) : dictInsert d k v = d ++ [(k, v)] := by
  unfold dictInsert
  have : d.any (fun kv => kv.1 == k) = false := by
    rw [List.any_eq_false]
    intro kv hkv
    simp [h kv hkv]
  rw [this]
  simp

lemma foldl_dictInsert_fresh :
    ∀ (l : List (String × ℕ)) (acc : Dict),
      (∀ kv ∈ l, ∀ kv' ∈ acc, kv'.1 ≠ kv.1) → (l.map Prod.fst).Nodup →
      l.foldl (fun d wv => dictInsert d wv.1 wv.2) acc = acc ++ l
  | [], acc => by simp
  | wv :: l, acc => by
    intro hfresh hnd
    have h1 : dictInsert acc wv.1 wv.2 = acc ++ [wv] := by
      rw [dictInsert_of_not_mem acc wv.1 wv.2
        (fun kv' hkv' => hfresh wv (List.mem_cons_self wv l) kv' hkv')]
    have hnd' : (l.map Prod.fst).Nodup := (List.nodup_cons.mp (by simpa using hnd)).2
    have hw : wv.1 ∉ l.map Prod.fst := (List.nodup_cons.mp (by simpa using hnd)).1
    have hfresh' : ∀ kv ∈ l, ∀ kv' ∈ acc ++ [wv], kv'.1 ≠ kv.1 := by
      intro kv hkv kv' hkv'
      rcases List.mem_append.mp hkv' with hin | hin
      · exact hfresh kv (List.mem_cons_of_mem wv hkv) kv' hin
      · have : kv' = wv := by simpa using hin
        subst this
        intro he
        exact hw (he ▸ List.mem_map_of_mem Prod.fst hkv)
    calc (wv :: l).foldl (fun d wv => dictInsert d wv.1 wv.2) acc
        = l.foldl (fun d wv => dictInsert d wv.1 wv.2) (acc ++ [wv]) := by
          simp [List.foldl_cons, h1]
      _ = (acc ++ [wv]) ++ l := foldl_dictInsert_fresh l (acc ++ [wv]) hfresh' hnd'
      _ = acc ++ (wv :: l) := by simp

lemma buildFeatureMap_eq_zip (words : List String) (vec : List ℕ)
    (hnd : words.Nodup) (hlen : words.length ≤ vec.length) :
    buildFeatureMap words vec = words.zip vec := by
  unfold buildFeatureMap
  have hmap : (words.zip vec).map Prod.fst = words := List.map_fst_zip words vec hlen
  have := foldl_dictInsert_fresh (words.zip vec) []
    (fun kv _ kv' hkv' => absurd hkv' (List.not_mem_nil kv')) (by rw [hmap]; exact hnd)
  simpa using this

lemma buildFeaturesets_eq_map (words : List String) (vecs : List (List ℕ))
    (labels : List Bool) :
    buildFeaturesets words vecs labels
      = (vecs.zip labels).map (fun vl => (buildFeatureMap words vl.1, vl.2)) := by
  unfold buildFeaturesets
  rw [foldl_append_singleton]
  simp

/-- Claim C3: every feature map produced by the Featureset Builder is dense,
with exactly one entry per vocabulary token (zero counts included, keys in
vocabulary order), and the output has one (feature-map, label) pair per track
in input order. -/
theorem c3_featuresets_dense (docs : List String) (labels : List Bool)
    (h : labels.length = docs.length) :
    (buildFeaturesets (vectorize docs).1 (vectorize docs).2 labels).length = docs.length ∧
    (buildFeaturesets (vectorize docs).1 (vectorize docs).2 labels).map Prod.snd = labels ∧
    ∀ fm ∈ buildFeaturesets (vectorize docs).1 (vectorize docs).2 labels,
      fm.1.map Prod.fst = (vectorize docs).1 ∧ fm.1.length = (vectorize docs).1.length := by
  have hvlen : (vectorize docs).2.length = docs.length := by simp [vectorize]
  have hnd : (vectorize docs).1.Nodup := List.nodup_dedup _
  have hveclen : ∀ v ∈ (vectorize docs).2, v.length = (vectorize docs).1.length := by
    intro v hv
    simp only [vectorize] at hv ⊢
    rcases List.mem_map.mp hv with ⟨t, _, rfl⟩
    simp
  rw [buildFeaturesets_eq_map]
  refine ⟨?_, ?_, ?_⟩
  · rw [List.length_map, List.length_zip, hvlen, h, Nat.min_self]
  · rw [List.map_map]
    have : (Prod.snd ∘ fun vl : List ℕ × Bool => (buildFeatureMap (vectorize docs).1 vl.1, vl.2))
        = Prod.snd := rfl
    rw [this]
    exact List.map_snd_zip _ _ (by rw [hvlen, h])
  · intro fm hfm
    rcases List.mem_map.mp hfm with ⟨vl, hvl, rfl⟩
    have hv : vl.1 ∈ (vectorize docs).2 := (List.of_mem_zip hvl).1
    have hlen : (vectorize docs).1.length ≤ vl.1.length := le_of_eq (hveclen vl.1 hv).symm
    have hbz := buildFeatureMap_eq_zip (vectorize docs).1 vl.1 hnd hlen
    constructor
    · rw [hbz]
      exact List.map_fst_zip _ _ hlen
    · rw [hbz, List.length_zip, hveclen vl.1 hv, Nat.min_self]

/-- Claim C3 witness at a concrete corpus. -/
theorem c3_featuresets_dense_witness :
    (buildFeaturesets (vectorize ["damn hello", "damn"]).1
        (vectorize ["damn hello", "damn"]).2 [true, false]).length
      = (["damn hello", "damn"] : List String).length ∧
    (buildFeaturesets (vectorize ["damn hello", "damn"]).1
        (vectorize ["damn hello", "damn"]).2 [true, false]).map Prod.snd = [true, false] ∧
    ∀ fm ∈ buildFeaturesets (vectorize ["damn hello", "damn"]).1
        (vectorize ["damn hello", "damn"]).2 [true, false],
      fm.1.map Prod.fst = (vectorize ["damn hello", "damn"]).1 ∧
      fm.1.length = (vectorize ["damn hello", "damn"]).1.length :=
  c3_featuresets_dense ["damn hello", "damn"] [true, false] (by decide)

/-- Claim C8: on a degenerate corpus (no tracks, or every normalized string
empty) the Vectorizer and the Featureset Builder return an empty vocabulary,
zero-length count-vectors and zero-length feature maps, without failing. -/
theorem c8_degenerate_corpus (docs : List String) (labels : List Bool)
    (h : ∀ d ∈ docs, d = "") :
    (vectorize docs).1 = [] ∧
    (∀ v ∈ (vectorize docs).2, v = []) ∧
    (∀ fm ∈ buildFeaturesets (vectorize docs).1 (vectorize docs).2 labels, fm.1 = []) := by
  have htok : ∀ d ∈ docs, tokens d = [] := by
    intro d hd
    rw [h d hd]
    decide
  have hjoin : (docs.map tokens).flatten = [] := by
    rw [List.flatten_eq_nil_iff]
    intro l hl
    rcases List.mem_map.mp hl with ⟨d, hd, rfl⟩
    exact htok d hd
  have hvocab : (vectorize docs).1 = [] := by
    simp only [vectorize]
    rw [hjoin]
    rfl
  refine ⟨hvocab, ?_, ?_⟩
  · intro v hv
    simp only [vectorize] at hv
    rcases List.mem_map.mp hv with ⟨t, _, rfl⟩
    rw [show (docs.map tokens).flatten.dedup = [] from by rw [hjoin]; rfl]
    rfl
  · intro fm hfm
    rw [buildFeaturesets_eq_map] at hfm
    rcases List.mem_map.mp hfm with ⟨vl, _, rfl⟩
    rw [hvocab]
    rfl

/-- Claim C8 witness at a concrete degenerate corpus. -/
theorem c8_degenerate_corpus_witness :
    (vectorize ["", ""]).1 = [] ∧
    (∀ v ∈ (vectorize ["", ""]).2, v = []) ∧
    (∀ fm ∈ buildFeaturesets (vectorize ["", ""]).1 (vectorize ["", ""]).2 [true, false],
      fm.1 = []) :=
  c8_degenerate_corpus ["", ""] [true, false] (by decide)

/-- Embedding of the inner loop of cell 13:
`for word in featureDict.keys():`
`  if word in most_informative_features: newFeatureDict[word] = featureDict[word]`. -/
def filterDictLoop (topK : List String) (d : Dict) : Dict :=
  (d.map Prod.fst).foldl
    (fun nd word => if topK.contains word then dictInsert nd word (dictGet d word) else nd) []

/-- Embedding of the `informative_featuresets` loop of cell 13: for each
(feature-map, label) pair build a new filtered dict and append the pair. -/
def reduceFeaturesets (topK : List String) (fss : List (Dict × Bool)) : List (Dict × Bool) :=
  fss.foldl (fun acc fd => acc ++ [(filterDictLoop topK fd.1, fd.2)]) []

lemma dictGet_eq_of_mem :
    ∀ (d : Dict), (d.map Prod.fst).Nodup → ∀ kv ∈ d, dictGet d kv.1 = kv.2
  | [], _, kv, h => absurd h (List.not_mem_nil kv)
  | kv' :: d, hnd, kv, h => by
    rcases List.mem_cons.mp h with he | hd
    · subst he
      unfold dictGet
      rw [List.find?_cons_of_pos _ (by simp)]
      rfl
    · have hk : kv'.1 ≠ kv.1 := by
        intro he
        have : kv'.1 ∉ d.map Prod.fst := (List.nodup_cons.mp (by simpa using hnd)).1
        exact this (he ▸ List.mem_map_of_mem Prod.fst hd)
    -- the head key differs, so lookup proceeds in the tail
      unfold dictGet
      rw [List.find?_cons_of_neg _ (by simp [hk])]
      exact dictGet_eq_of_mem d (List.nodup_cons.mp (by simpa using hnd)).2 kv hd

lemma filter_loop_aux (topK : List String) (d : Dict) :
    ∀ (l : List (String × ℕ)) (acc : Dict),
      (acc.map Prod.fst ++ l.map Prod.fst).Nodup →
      (∀ kv ∈ l, dictGet d kv.1 = kv.2) →
      (l.map Prod.fst).foldl
        (fun nd word => if topK.contains word then dictInsert nd word (dictGet d word) else nd)
        acc
      = acc ++ l.filter (fun kv => topK.contains kv.1)
  | [], acc => by simp
  | kv :: l, acc => by
    intro hnd hval
    have hnotin : ∀ kv' ∈ acc, kv'.1 ≠ kv.1 := by
      intro kv' hkv' he
      have hdisj := (List.nodup_append.mp hnd).2.2
      exact hdisj (he ▸ List.mem_map_of_mem Prod.fst hkv')
        (by simp)
    by_cases hk : kv.1 ∈ topK
    · have hstep : dictInsert acc kv.1 (dictGet d kv.1) = acc ++ [kv] := by
        rw [hval kv (List.mem_cons_self kv l), dictInsert_of_not_mem acc kv.1 kv.2 hnotin]
      have hnd' : ((acc ++ [kv]).map Prod.fst ++ l.map Prod.fst).Nodup := by
        simpa using hnd
      have hval' : ∀ kv' ∈ l, dictGet d kv'.1 = kv'.2 :=
        fun kv' h' => hval kv' (List.mem_cons_of_mem kv h')
      calc ((kv :: l).map Prod.fst).foldl
            (fun nd word =>
              if topK.contains word then dictInsert nd word (dictGet d word) else nd) acc
          = (l.map Prod.fst).foldl
            (fun nd word =>
              if topK.contains word then dictInsert nd word (dictGet d word) else nd)
            (acc ++ [kv]) := by
            simp [List.foldl_cons, hk, hstep]
        _ = (acc ++ [kv]) ++ l.filter (fun kv => topK.contains kv.1) :=
            filter_loop_aux topK d l (acc ++ [kv]) hnd' hval'
        _ = acc ++ (kv :: l).filter (fun kv => topK.contains kv.1) := by
            simp [List.filter_cons, hk]
    · have hnd' : (acc.map Prod.fst ++ l.map Prod.fst).Nodup := by
        refine List.Nodup.sublist ?_ hnd
        exact List.Sublist.append_left (List.sublist_cons_self kv.1 (l.map Prod.fst)) _
      have hval' : ∀ kv' ∈ l, dictGet d kv'.1 = kv'.2 :=
        fun kv' h' => hval kv' (List.mem_cons_of_mem kv h')
      calc ((kv :: l).map Prod.fst).foldl
            (fun nd word =>
              if topK.contains word then dictInsert nd word (dictGet d word) else nd) acc
          = (l.map Prod.fst).foldl
            (fun nd word =>
              if topK.contains word then dictInsert nd word (dictGet d word) else nd) acc := by
            simp [List.foldl_cons, hk]
        _ = acc ++ l.filter (fun kv => topK.contains kv.1) :=
            filter_loop_aux topK d l acc hnd' hval'
        _ = acc ++ (kv :: l).filter (fun kv => topK.contains kv.1) := by
            simp [List.filter_cons, hk]

lemma filterDictLoop_eq_filter (topK : List String) (d : Dict)
    (hd : (d.map Prod.fst).Nodup) :
    filterDictLoop topK d = d.filter (fun kv => topK.contains kv.1) := by
  unfold filterDictLoop
  have := filter_loop_aux topK d d [] (by simpa using hd) (dictGet_eq_of_mem d hd)
  simpa using this

lemma mem_zip_map {α β : Type} (g : α → β) :
    ∀ (l : List α) (pr : α × β), pr ∈ l.zip (l.map g) → pr.2 = g pr.1
  | [], pr, h => absurd h (List.not_mem_nil pr)
  | x :: l, pr, h => by
    rcases List.mem_cons.mp (by simpa [List.zip_cons_cons] using h) with he | ht
    · subst he
      rfl
    · exact mem_zip_map g l pr ht

lemma reduceFeaturesets_eq_map (topK : List String) (fss : List (Dict × Bool)) :
    reduceFeaturesets topK fss
      = fss.map (fun fd => (filterDictLoop topK fd.1, fd.2)) := by
  unfold reduceFeaturesets
  rw [foldl_append_singleton]
  simp

/-- Claim C4: the Feature Selector returns a sequence of the same length and
order, where each output feature-map keeps exactly those entries of the
corresponding input map whose key is in the top-K name list (label and
retained counts unchanged, unlisted keys removed), and hence has at most as
many entries as that list. -/
theorem c4_feature_selection (topK : List String) (fss : List (Dict × Bool))
    (h : ∀ fd ∈ fss, (fd.1.map Prod.fst).Nodup) :
    (reduceFeaturesets topK fss).length = fss.length ∧
    ∀ pr ∈ fss.zip (reduceFeaturesets topK fss),
      pr.2.2 = pr.1.2 ∧
      pr.2.1 = pr.1.1.filter (fun kv => topK.contains kv.1) ∧
      (∀ kv ∈ pr.2.1, kv.1 ∈ topK) ∧
      (∀ kv ∈ pr.1.1, kv.1 ∈ topK → kv ∈ pr.2.1) ∧
      pr.2.1.length ≤ topK.length := by
  constructor
  · rw [reduceFeaturesets_eq_map, List.length_map]
  · intro pr hpr
    have hmem : pr.1 ∈ fss := (List.of_mem_zip (by
      rw [reduceFeaturesets_eq_map] at hpr
      exact hpr)).1
    have hsnd : pr.2 = (filterDictLoop topK pr.1.1, pr.1.2) := by
      rw [reduceFeaturesets_eq_map] at hpr
      exact mem_zip_map _ fss pr hpr
    have hnd : (pr.1.1.map Prod.fst).Nodup := h pr.1 hmem
    have hfil : pr.2.1 = pr.1.1.filter (fun kv => topK.contains kv.1) := by
      rw [hsnd]
      exact filterDictLoop_eq_filter topK pr.1.1 hnd
    refine ⟨by rw [hsnd], hfil, ?_, ?_, ?_⟩
    · intro kv hkv
      rw [hfil] at hkv
      have := List.of_mem_filter hkv
      simpa [List.contains_iff_exists_mem_beq, beq_iff_eq] using this
    · intro kv hkv hin
      rw [hfil]
      refine List.mem_filter.mpr ⟨hkv, ?_⟩
      simpa using hin
    · have hndf : (pr.2.1.map Prod.fst).Nodup := by
        rw [hfil]
        exact List.Nodup.sublist (List.Sublist.map Prod.fst (List.filter_sublist _)) hnd
      have hsub : ∀ w ∈ pr.2.1.map Prod.fst, w ∈ topK := by
        intro w hw
        rcases List.mem_map.mp hw with ⟨kv, hkv, rfl⟩
        rw [hfil] at hkv
        have := List.of_mem_filter hkv
        simpa [List.contains_iff_exists_mem_beq, beq_iff_eq] using this
      calc pr.2.1.length = (pr.2.1.map Prod.fst).length := (List.length_map _ _).symm
        _ = (pr.2.1.map Prod.fst).toFinset.card := (List.toFinset_card_of_nodup hndf).symm
        _ ≤ topK.toFinset.card := by
            apply Finset.card_le_card
            intro w hw
            rw [List.mem_toFinset] at hw ⊢
            exact hsub w hw
        _ ≤ topK.length := List.toFinset_card_le topK

/-- Claim C4 witness at a concrete featureset and top-K list. -/
theorem c4_feature_selection_witness :
    (reduceFeaturesets ["damn", "hell"] [([("damn", 2), ("sunshine", 0)], true)]).length
      = ([([("damn", 2), ("sunshine", 0)], true)] : List (Dict × Bool)).length ∧
    ∀ pr ∈ ([([("damn", 2), ("sunshine", 0)], true)] : List (Dict × Bool)).zip
        (reduceFeaturesets ["damn", "hell"] [([("damn", 2), ("sunshine", 0)], true)]),
      pr.2.2 = pr.1.2 ∧
      pr.2.1 = pr.1.1.filter (fun kv => (["damn", "hell"] : List String).contains kv.1) ∧
      (∀ kv ∈ pr.2.1, kv.1 ∈ (["damn", "hell"] : List String)) ∧
      (∀ kv ∈ pr.1.1, kv.1 ∈ (["damn", "hell"] : List String) → kv ∈ pr.2.1) ∧
      pr.2.1.length ≤ (["damn", "hell"] : List String).length :=
  c4_feature_selection ["damn", "hell"] [([("damn", 2), ("sunshine", 0)], true)]
    (by decide)

/-- Modelled from the spec: the classes of the evaluation are the distinct
labels observed among true or predicted labels
(`precision_recall_fscore_support` with default `labels=None`). -/
def classesOf (yt yp : List Bool) : List Bool :=
  (yt ++ yp).dedup

/-- True positives of class `c`: positions where both the true and the
predicted label equal `c`. -/
def countTP (yt yp : List Bool) (c : Bool) : ℕ :=
  (yt.zip yp).countP (fun q => q.1 == c && q.2 == c)

/-- False positives of class `c`: positions predicted `c` whose true label
differs. -/
def countFP (yt yp : List Bool) (c : Bool) : ℕ :=
  (yt.zip yp).countP (fun q => q.2 == c && !(q.1 == c))

/-- False negatives of class `c`: positions with true label `c` predicted
otherwise. -/
def countFN (yt yp : List Bool) (c : Bool) : ℕ :=
  (yt.zip yp).countP (fun q => q.1 == c && !(q.2 == c))

/-- Modelled from the spec: per-class precision, `tp / (tp + fp)`, taken as 0
when the denominator vanishes (the sklearn zero-division default). -/
def precisionOf (yt yp : List Bool) (c : Bool) : ℚ :=
  let tp := countTP yt yp c
  let fp := countFP yt yp c
  if tp + fp = 0 then 0 else (tp : ℚ) / ((tp : ℚ) + (fp : ℚ))

/-- Modelled from the spec: per-class recall, `tp / (tp + fn)`, taken as 0
when the denominator vanishes. -/
def recallOf (yt yp : List Bool) (c : Bool) : ℚ :=
  let tp := countTP yt yp c
  let fn := countFN yt yp c
  if tp + fn = 0 then 0 else (tp : ℚ) / ((tp : ℚ) + (fn : ℚ))

/-- Modelled from the spec: per-class F-score, the harmonic mean
`2 p r / (p + r)`, taken as 0 when precision and recall are both 0. -/
def fscoreOf (yt yp : List Bool) (c : Bool) : ℚ :=
  let p := precisionOf yt yp c
  let r := recallOf yt yp c
  if p + r = 0 then 0 else 2 * p * r / (p + r)

/-- Modelled from the spec: per-class support, the number of occurrences of
the class among the true labels. -/
def supportOf (yt : List Bool) (c : Bool) : ℕ :=
  yt.count c

/-- The metrics record returned by one evaluation: the four per-class arrays
`p, r, f, s` of cell 9. -/
structure MetricsRec where
  precision : List ℚ
  recallArr : List ℚ
  fscore : List ℚ
  support : List ℕ

/-- Modelled from the spec: `precision_recall_fscore_support(testY, predictY)`
(an external sklearn call), one entry per observed class. -/
def prfs (yt yp : List Bool) : MetricsRec :=
  ⟨(classesOf yt yp).map (precisionOf yt yp),
   (classesOf yt yp).map (recallOf yt yp),
   (classesOf yt yp).map (fscoreOf yt yp),
   (classesOf yt yp).map (supportOf yt)⟩

/-- Modelled from the spec: the held-out test-subset size of the default
`train_test_split`, namely `ceil(0.25 * n)`. -/
def testSizeOf (n : ℕ) : ℕ :=
  (n + 3) / 4

/-- Embedding of `naive_bayes` (cell 9).  The random draw of
`train_test_split` is modelled by `perm`, a permutation of the featuresets,
whose first `testSizeOf` elements form the held-out test subset; training
(`nltk.NaiveBayesClassifier.train`, external) is modelled by the abstract
trained classifier `cls`.  Returns the metrics record and the metric lines
printed when `printMetrics` is set. -/
def naive_bayesRun (cls : Dict → Bool) (perm : List (Dict × Bool))
    (printMetrics : Bool) : MetricsRec × List (String × List ℚ) :=
  let t := testSizeOf perm.length
  let testSet := perm.take t
  let testY := testSet.map Prod.snd
  let predictY := testSet.map (fun q => cls q.1)
  let m := prfs testY predictY
  (m,
    if printMetrics then
      [("precision", m.precision), ("recall", m.recallArr), ("f-score", m.fscore),
        ("support", m.support.map (fun v => (v : ℚ)))]
    else [])

lemma precisionOf_unit (yt yp : List Bool) (c : Bool) :
    0 ≤ precisionOf yt yp c ∧ precisionOf yt yp c ≤ 1 := by
  unfold precisionOf
  by_cases h : countTP yt yp c + countFP yt yp c = 0
  · simp [h]
  · simp only [h, if_false]
    have hpos : (0 : ℚ) < (countTP yt yp c : ℚ) + (countFP yt yp c : ℚ) := by
      have : 0 < countTP yt yp c + countFP yt yp c := Nat.pos_of_ne_zero h
      exact_mod_cast this
    constructor
    · positivity
    · rw [div_le_one hpos]
      have : (0 : ℚ) ≤ (countFP yt yp c : ℚ) := by positivity
      linarith

lemma recallOf_unit (yt yp : List Bool) (c : Bool) :
    0 ≤ recallOf yt yp c ∧ recallOf yt yp c ≤ 1 := by
  unfold recallOf
  by_cases h : countTP yt yp c + countFN yt yp c = 0
  · simp [h]
  · simp only [h, if_false]
    have hpos : (0 : ℚ) < (countTP yt yp c : ℚ) + (countFN yt yp c : ℚ) := by
      have : 0 < countTP yt yp c + countFN yt yp c := Nat.pos_of_ne_zero h
      exact_mod_cast this
    constructor
    · positivity
    · rw [div_le_one hpos]
      have : (0 : ℚ) ≤ (countFN yt yp c : ℚ) := by positivity
      linarith

lemma fscoreOf_unit (yt yp : List Bool) (c : Bool) :
    0 ≤ fscoreOf yt yp c ∧ fscoreOf yt yp c ≤ 1 := by
  obtain ⟨hp0, hp1⟩ := precisionOf_unit yt yp c
  obtain ⟨hr0, hr1⟩ := recallOf_unit yt yp c
  unfold fscoreOf
  by_cases h : precisionOf yt yp c + recallOf yt yp c = 0
  · simp [h]
  · simp only [h, if_false]
    have hpos : 0 < precisionOf yt yp c + recallOf yt yp c :=
      lt_of_le_of_ne (by linarith) (fun e => h e.symm)
    constructor
    · positivity
    · rw [div_le_one hpos]
      nlinarith

/-- Claim C6: in every evaluation run, each per-class precision, recall and
F-score lies in the interval from 0 to 1, and the per-class supports (natural
numbers by construction) sum to the held-out test-subset size, which is 25
percent of the input rounded up. -/
theorem c6_metrics_range (cls : Dict → Bool) (fs perm : List (Dict × Bool))
    (b : Bool) (h : perm.Perm fs) :
    (∀ x ∈ (naive_bayesRun cls perm b).1.precision, 0 ≤ x ∧ x ≤ 1) ∧
    (∀ x ∈ (naive_bayesRun cls perm b).1.recallArr, 0 ≤ x ∧ x ≤ 1) ∧
    (∀ x ∈ (naive_bayesRun cls perm b).1.fscore, 0 ≤ x ∧ x ≤ 1) ∧
    (naive_bayesRun cls perm b).1.support.sum = testSizeOf fs.length := by
  have hm : (naive_bayesRun cls perm b).1
      = prfs ((perm.take (testSizeOf perm.length)).map Prod.snd)
          ((perm.take (testSizeOf perm.length)).map (fun q => cls q.1)) := rfl
  set yt := (perm.take (testSizeOf perm.length)).map Prod.snd with hyt
  set yp := (perm.take (testSizeOf perm.length)).map (fun q => cls q.1) with hyp
  refine ⟨?_, ?_, ?_, ?_⟩
  · intro x hx
    rw [hm] at hx
    rcases List.mem_map.mp hx with ⟨c, _, rfl⟩
    exact precisionOf_unit yt yp c
  · intro x hx
    rw [hm] at hx
    rcases List.mem_map.mp hx with ⟨c, _, rfl⟩
    exact recallOf_unit yt yp c
  · intro x hx
    rw [hm] at hx
    rcases List.mem_map.mp hx with ⟨c, _, rfl⟩
    exact fscoreOf_unit yt yp c
  · rw [hm]
    show ((classesOf yt yp).map (supportOf yt)).sum = testSizeOf fs.length
    have hsum : ((classesOf yt yp).map (supportOf yt)).sum = yt.length := by
      apply sum_map_count _ (List.nodup_dedup _)
      intro a ha
      rw [List.mem_dedup]
      exact List.mem_append.mpr (Or.inl ha)
    rw [hsum, hyt, List.length_map, List.length_take]
    have hle : testSizeOf perm.length ≤ perm.length := by
      unfold testSizeOf
      omega
    rw [Nat.min_eq_left hle, h.length_eq]

/-- Claim C6 witness at a concrete featureset list and draw. -/
theorem c6_metrics_range_witness :
    (∀ x ∈ (naive_bayesRun (fun _ => true)
        [([("damn", 1)], true), ([], false)] false).1.precision, 0 ≤ x ∧ x ≤ 1) ∧
    (∀ x ∈ (naive_bayesRun (fun _ => true)
        [([("damn", 1)], true), ([], false)] false).1.recallArr, 0 ≤ x ∧ x ≤ 1) ∧
    (∀ x ∈ (naive_bayesRun (fun _ => true)
        [([("damn", 1)], true), ([], false)] false).1.fscore, 0 ≤ x ∧ x ≤ 1) ∧
    (naive_bayesRun (fun _ => true)
        [([("damn", 1)], true), ([], false)] false).1.support.sum
      = testSizeOf ([([("damn", 1)], true), ([], false)] : List (Dict × Bool)).length :=
  c6_metrics_range (fun _ => true) [([("damn", 1)], true), ([], false)]
    [([("damn", 1)], true), ([], false)] false (List.Perm.refl _)

/-- A Python value held in the `metrics_averages` dict: the initial int 0, or
a numpy metric array. -/
inductive PyVal where
  | scalar (q : ℚ)
  | arr (l : List ℚ)
deriving DecidableEq

/-- Model of `metrics_averages[metric] + metrics[metric]`: the initial scalar
0 broadcasts over the array, two arrays add elementwise (the notebook relies
on equal array shapes across repetitions; the spec flags the unequal-shape
hazard and leaves it unresolved). -/
def pvAdd (v : PyVal) (x : List ℚ) : PyVal :=
  match v with
  | .scalar q => .arr (x.map (fun e => q + e))
  | .arr a => .arr (List.zipWith (fun e e' => e + e') a x)

/-- Model of `metrics_averages[metric] / n`: dividing the initial Python int
0 by zero raises `ZeroDivisionError`; numpy array division is elementwise and
raises no exception. -/
def pvDiv (v : PyVal) (n : ℚ) : Except String PyVal :=
  match v with
  | .scalar q => if n = 0 then .error "ZeroDivisionError" else .ok (.scalar (q / n))
  | .arr a => .ok (.arr (a.map (fun e => e / n)))

/-- The `metrics_averages` dict of cell 18, with its four fixed keys in
insertion order. -/
structure MCAcc where
  precision : PyVal
  recallArr : PyVal
  fscore : PyVal
  support : PyVal
deriving DecidableEq

/-- Embedding of the accumulation loop of `MonteCarloCrossValidation`
(cell 18): starting from scalar zeros, add the four metric arrays of each
repetition (`runs k` is the metrics record of the k-th call of
`naive_bayes(featuresets, printMetrics=False)`). -/
def mcLoop (runs : ℕ → MetricsRec) : ℕ → MCAcc
  | 0 => ⟨.scalar 0, .scalar 0, .scalar 0, .scalar 0⟩
  | k + 1 =>
    let acc := mcLoop runs k
    let m := runs k
    ⟨pvAdd acc.precision m.precision, pvAdd acc.recallArr m.recallArr,
      pvAdd acc.fscore m.fscore, pvAdd acc.support (m.support.map (fun v => (v : ℚ)))⟩

/-- Embedding of `MonteCarloCrossValidation` (cell 18): accumulate over `n`
repetitions, divide each accumulated metric by `n` (in dict insertion order),
then print the four averaged metrics and return them.  A raised
`ZeroDivisionError` short-circuits before anything is printed or returned,
exactly as in the source. -/
def MonteCarloCrossValidation (runs : ℕ → MetricsRec) (n : ℕ) :
    Except String (MCAcc × List (String × PyVal)) := do
  let acc := mcLoop runs n
  let p ← pvDiv acc.precision (n : ℚ)
  let r ← pvDiv acc.recallArr (n : ℚ)
  let f ← pvDiv acc.fscore (n : ℚ)
  let s ← pvDiv acc.support (n : ℚ)
  return (⟨p, r, f, s⟩,
    [("average precision", p), ("average recall", r),
      ("average f-score", f), ("average support", s)])

/-- The repetitions the Monte Carlo loop performs: the k-th repetition calls
`naive_bayes` with `printMetrics=False` on a fresh random draw `perms k`,
with the classifier `cls k` trained on that draw. -/
def mcRuns (cls : ℕ → Dict → Bool) (perms : ℕ → List (Dict × Bool))
    (k : ℕ) : MetricsRec :=
  (naive_bayesRun (cls k) (perms k) false).1

/-- Claim C5: with `n = 1`, the Monte Carlo validator returns exactly the
metrics record of the single direct `naive_bayes` call made with the same
random draw: each averaged array equals the corresponding single-run array
entry for entry. -/
theorem c5_monte_carlo_n1 (cls : ℕ → Dict → Bool)
    (perms : ℕ → List (Dict × Bool)) :
    MonteCarloCrossValidation (mcRuns cls perms) 1
      = Except.ok
          (⟨PyVal.arr (mcRuns cls perms 0).precision,
            PyVal.arr (mcRuns cls perms 0).recallArr,
            PyVal.arr (mcRuns cls perms 0).fscore,
            PyVal.arr ((mcRuns cls perms 0).support.map (fun v => (v : ℚ)))⟩,
          [("average precision", PyVal.arr (mcRuns cls perms 0).precision),
            ("average recall", PyVal.arr (mcRuns cls perms 0).recallArr),
            ("average f-score", PyVal.arr (mcRuns cls perms 0).fscore),
            ("average support",
              PyVal.arr ((mcRuns cls perms 0).support.map (fun v => (v : ℚ))))]) := by
  have hmap : ∀ l : List ℚ, (l.map (fun e => (0 : ℚ) + e)).map (fun e => e / 1) = l := by
    intro l
    simp
  simp [MonteCarloCrossValidation, mcLoop, pvAdd, pvDiv, bind, Except.bind, hmap,
    pure, Except.pure]

lemma pvAdd_is_arr (v : PyVal) (x : List ℚ) : ∃ l, pvAdd v x = PyVal.arr l := by
  cases v <;> exact ⟨_, rfl⟩

/-- Claim C10: with repetition count 0 the Monte Carlo validator hits a
division by zero before printing or returning any averaged metric; with any
count of at least 1 it completes, every division being well-defined. -/
theorem c10_monte_carlo_zero_reps (cls : ℕ → Dict → Bool)
    (perms : ℕ → List (Dict × Bool)) :
    MonteCarloCrossValidation (mcRuns cls perms) 0 = Except.error "ZeroDivisionError" ∧
    ∀ n : ℕ, 1 ≤ n →
      ∃ out, MonteCarloCrossValidation (mcRuns cls perms) n = Except.ok out := by
  constructor
  · rfl
  · intro n hn
    obtain ⟨m, rfl⟩ : ∃ m, n = m + 1 := ⟨n - 1, by omega⟩
    obtain ⟨lp, hp⟩ := pvAdd_is_arr (mcLoop (mcRuns cls perms) m).precision
      (mcRuns cls perms m).precision
    obtain ⟨lr, hr⟩ := pvAdd_is_arr (mcLoop (mcRuns cls perms) m).recallArr
      (mcRuns cls perms m).recallArr
    obtain ⟨lf, hf⟩ := pvAdd_is_arr (mcLoop (mcRuns cls perms) m).fscore
      (mcRuns cls perms m).fscore
    obtain ⟨ls, hs⟩ := pvAdd_is_arr (mcLoop (mcRuns cls perms) m).support
      ((mcRuns cls perms m).support.map (fun v => (v : ℚ)))
    have hacc : mcLoop (mcRuns cls perms) (m + 1)
        = ⟨PyVal.arr lp, PyVal.arr lr, PyVal.arr lf, PyVal.arr ls⟩ := by
      show (⟨pvAdd (mcLoop (mcRuns cls perms) m).precision (mcRuns cls perms m).precision,
             pvAdd (mcLoop (mcRuns cls perms) m).recallArr (mcRuns cls perms m).recallArr,
             pvAdd (mcLoop (mcRuns cls perms) m).fscore (mcRuns cls perms m).fscore,
             pvAdd (mcLoop (mcRuns cls perms) m).support
               ((mcRuns cls perms m).support.map (fun v => (v : ℚ)))⟩ : MCAcc) = _
      rw [hp, hr, hf, hs]
    have heq : MonteCarloCrossValidation (mcRuns cls perms) (m + 1)
        = Except.ok
            (⟨PyVal.arr (lp.map (fun e => e / ((m + 1 : ℕ) : ℚ))),
              PyVal.arr (lr.map (fun e => e / ((m + 1 : ℕ) : ℚ))),
              PyVal.arr (lf.map (fun e => e / ((m + 1 : ℕ) : ℚ))),
              PyVal.arr (ls.map (fun e => e / ((m + 1 : ℕ) : ℚ)))⟩,
            [("average precision", PyVal.arr (lp.map (fun e => e / ((m + 1 : ℕ) : ℚ)))),
              ("average recall", PyVal.arr (lr.map (fun e => e / ((m + 1 : ℕ) : ℚ)))),
              ("average f-score", PyVal.arr (lf.map (fun e => e / ((m + 1 : ℕ) : ℚ)))),
              ("average support", PyVal.arr (ls.map (fun e => e / ((m + 1 : ℕ) : ℚ))))]) := by
      unfold MonteCarloCrossValidation
      rw [hacc]
      rfl
    exact ⟨_, heq⟩

/-- Claim C10 witness at a concrete instance: repetition count 0 raises and
repetition count 1 completes. -/
theorem c10_monte_carlo_zero_reps_witness :
    MonteCarloCrossValidation (mcRuns (fun _ _ => true) (fun _ => [])) 0
      = Except.error "ZeroDivisionError" ∧
    ∃ out, MonteCarloCrossValidation (mcRuns (fun _ _ => true) (fun _ => [])) 1
      = Except.ok out :=
  ⟨(c10_monte_carlo_zero_reps (fun _ _ => true) (fun _ => [])).1,
    (c10_monte_carlo_zero_reps (fun _ _ => true) (fun _ => [])).2 1 (by decide)⟩

lemma splitBy_ne_nil (p : Char → Bool) : ∀ cs : List Char, splitBy p cs ≠ []
  | [] => by simp [splitBy]
  | c :: rest => by
    unfold splitBy
    rcases h : splitBy p rest with _ | ⟨g, gs⟩
    · simp
    · by_cases hp : p c <;> simp [hp]

lemma splitBy_of_no_sep (p : Char → Bool) :
    ∀ cs : List Char, (∀ c ∈ cs, ¬p c) → splitBy p cs = [cs]
  | [], _ => rfl
  | c :: rest, h => by
    have hrest := splitBy_of_no_sep p rest (fun c' hc' => h c' (List.mem_cons_of_mem c hc'))
    have hc : ¬p c = true := h c (List.mem_cons_self c rest)
    unfold splitBy
    rw [hrest]
    simp [hc]

lemma splitBy_append_sep (p : Char → Bool) (sep : Char) (hsep : p sep) :
    ∀ (xs rest : List Char), (∀ c ∈ xs, ¬p c) →
      splitBy p (xs ++ sep :: rest) = xs :: splitBy p rest
  | [], rest, _ => by
    show splitBy p (sep :: rest) = [] :: splitBy p rest
    rcases h : splitBy p rest with _ | ⟨g, gs⟩
    · exact absurd h (splitBy_ne_nil p rest)
    · conv_lhs => rw [splitBy]
      rw [h]
      simp [hsep]
  | x :: xs, rest, h => by
    have hx : ¬p x = true := h x (List.mem_cons_self x xs)
    have ih := splitBy_append_sep p sep hsep xs rest
      (fun c hc => h c (List.mem_cons_of_mem x hc))
    show splitBy p (x :: (xs ++ sep :: rest)) = (x :: xs) :: splitBy p rest
    conv_lhs => rw [splitBy]
    rw [ih]
    simp [hx]

lemma intercalate_cons₂ (sep : List Char) (x y : List Char) (l : List (List Char)) :
    List.intercalate sep (x :: y :: l) = x ++ sep ++ List.intercalate sep (y :: l) := by
  simp [List.intercalate, List.intersperse]

lemma splitBy_intercalate (p : Char → Bool) (sep : Char) (hsep : p sep) :
    ∀ l : List (List Char), l ≠ [] → (∀ g ∈ l, ∀ c ∈ g, ¬p c) →
      splitBy p (List.intercalate [sep] l) = l
  | [], hne, _ => absurd rfl hne
  | [x], _, h => by
    have : List.intercalate [sep] [x] = x := by simp [List.intercalate]
    rw [this]
    exact splitBy_of_no_sep p x (h x (List.mem_singleton.mpr rfl))
  | x :: y :: l, _, h => by
    rw [intercalate_cons₂]
    have hx : ∀ c ∈ x, ¬p c = true := h x (List.mem_cons_self x (y :: l))
    have ih := splitBy_intercalate p sep hsep (y :: l) (by simp)
      (fun g hg => h g (List.mem_cons_of_mem x hg))
    rw [show x ++ [sep] ++ List.intercalate [sep] (y :: l)
        = x ++ sep :: List.intercalate [sep] (y :: l) from by simp]
    rw [splitBy_append_sep p sep hsep x _ hx, ih]

/-- Splitting on single spaces is a left inverse of joining with single
spaces, for a nonempty list of space-free strings. -/
lemma pySplitSpace_joinSpace (ts : List String) (hne : ts ≠ [])
    (hs : ∀ t ∈ ts, ∀ c ∈ t.data, c ≠ ' ') :
    pySplitSpace (joinSpace ts) = ts := by
  unfold pySplitSpace joinSpace
  have hmk : (String.mk (List.intercalate [' '] (ts.map String.data))).data
      = List.intercalate [' '] (ts.map String.data) := rfl
  rw [hmk]
  have hgroups : ∀ g ∈ ts.map String.data, ∀ c ∈ g, ¬((fun c => c == ' ') c) = true := by
    intro g hg c hc
    rcases List.mem_map.mp hg with ⟨t, ht, rfl⟩
    simp [hs t ht c hc]
  rw [splitBy_intercalate (fun c => c == ' ') ' ' (by simp) (ts.map String.data)
    (by simpa using hne) hgroups]
  rw [List.map_map]
  have : ∀ t ∈ ts, (String.mk ∘ String.data) t = t := fun t _ => rfl
  rw [List.map_congr_left this]
  simp

/-- A stemmer witnessing that normalizer idempotence needs more than
idempotence of the stemmer: it is idempotent as a function, yet maps the
non-stop-word "ab" to the stop word "the". -/
def badStem (s : String) : String :=
  if s = "ab" then "the" else s

/-- Claim C7, counterexample: normalizing twice with the same stop-word set
and an idempotent stemmer does not always equal normalizing once.  With
stop-word set `\x7b"the"\x7d` and the idempotent stemmer `badStem`, the input
`"ab"` normalizes to `"the"`, which the second pass removes as a stop word,
yielding `""`. -/
theorem c7_counterexample :
    ¬(∀ (stem : String → String) (stop_words : List String) (s : String),
        (∀ w, stem (stem w) = stem w) →
        stemOne stem stop_words (stemOne stem stop_words s)
          = stemOne stem stop_words s) := by
  intro h
  have hidem : ∀ w, badStem (badStem w) = badStem w := by
    intro w
    by_cases hw : w = "ab"
    · subst hw
      decide
    · simp [badStem, hw]
  have := h badStem ["the"] "ab" hidem
  exact absurd this (by decide)

/-- Claim C7, amended: the normalizer is idempotent provided the stemmer is
idempotent AND stems never contain a space character, never lower-case to a
stop word, and the stemmer fixes the empty string (all of which hold for the
Porter stemmer with the English stop-word list except for rare words whose
stem is itself a stop word). -/
theorem c7_normalizer_idempotent (stem : String → String) (stop_words : List String)
    (hIdem : ∀ w, stem (stem w) = stem w)
    (hNoSp : ∀ w, ∀ c ∈ (stem w).data, c ≠ ' ')
    (hNotStop : ∀ w, pyLower (stem w) ∉ stop_words)
    (hEmpty : stem "" = "")
    (s : String) :
    stemOne stem stop_words (stemOne stem stop_words s) = stemOne stem stop_words s := by
  have h1 : stemOne stem stop_words s
      = joinSpace (((pySplitSpace s).filter
          (fun word => !(stop_words.contains (pyLower word)))).map stem) := rfl
  set ts := ((pySplitSpace s).filter
    (fun word => !(stop_words.contains (pyLower word)))).map stem with hts
  rw [h1]
  rcases List.eq_nil_or_concat ts with hnil | _
  · have h0 : joinSpace [] = "" := rfl
    have hps : pySplitSpace "" = [""] := rfl
    have hpl : pyLower "" = "" := rfl
    rw [hnil, h0]
    have hexp : stemOne stem stop_words ""
        = joinSpace (((pySplitSpace "").filter
            (fun word => !(stop_words.contains (pyLower word)))).map stem) := rfl
    rw [hexp, hps]
    by_cases hc : "" ∈ stop_words
    · rw [show ([""] : List String).filter
            (fun word => !(stop_words.contains (pyLower word))) = []
          from by simp [List.filter_cons, hpl, hc]]
      simpa using h0
    · rw [show ([""] : List String).filter
            (fun word => !(stop_words.contains (pyLower word))) = [""]
          from by simp [List.filter_cons, hpl, hc]]
      rw [show ([""] : List String).map stem = [""] from by simp [hEmpty]]
      rfl
  · have hne : ts ≠ [] := by
      rcases ts with _ | ⟨t, ts'⟩
      · rename_i hcat
        rcases hcat with ⟨l, a, hl⟩
        exact absurd hl.symm (List.concat_ne_nil a l)
      · simp
    have hstems : ∀ t ∈ ts, ∃ w, t = stem w := by
      intro t ht
      rcases List.mem_map.mp (hts ▸ ht) with ⟨w, _, rfl⟩
      exact ⟨w, rfl⟩
    have hnospace : ∀ t ∈ ts, ∀ c ∈ t.data, c ≠ ' ' := by
      intro t ht
      obtain ⟨w, rfl⟩ := hstems t ht
      exact hNoSp w
    have h2 : stemOne stem stop_words (joinSpace ts)
        = joinSpace (((pySplitSpace (joinSpace ts)).filter
            (fun word => !(stop_words.contains (pyLower word)))).map stem) := rfl
    rw [h2, pySplitSpace_joinSpace ts hne hnospace]
    have hkeep : ∀ t ∈ ts, (!(stop_words.contains (pyLower t))) = true := by
      intro t ht
      obtain ⟨w, rfl⟩ := hstems t ht
      have := hNotStop w
      simpa using this
    rw [List.filter_eq_self.mpr hkeep]
    have hfix : ∀ t ∈ ts, stem t = t := by
      intro t ht
      obtain ⟨w, rfl⟩ := hstems t ht
      exact hIdem w
    rw [show ts.map stem = ts.map id from List.map_congr_left hfix, List.map_id]

/-- Claim C7 witness: a concrete stemmer and stop-word set satisfying the
amended hypotheses, at a concrete input. -/
theorem c7_normalizer_idempotent_witness :
    stemOne (fun _ => "") [] (stemOne (fun _ => "") [] "hello world")
      = stemOne (fun _ => "") [] "hello world" :=
  c7_normalizer_idempotent (fun _ => "") []
    (fun _ => rfl)
    (fun _ c hc => absurd hc (List.not_mem_nil c))
    (fun _ => List.not_mem_nil _)
    rfl
    "hello world"

/-- A store of Python dict objects; an address is an index into the store. -/
abbrev Store := List Dict

/-- Embedding of the cell 13 loop with explicit dict identity: each input
pair holds the address of its feature dict in the store; each iteration reads
the dict at that address, allocates the fresh `newFeatureDict` at a fresh
address, fills it by the key-filtering inner loop, and appends the
(new address, label) pair to the output list. -/
def selectLoopStore (topK : List String) (fsRefs : List (ℕ × Bool)) (store : Store) :
    List (ℕ × Bool) × Store :=
  fsRefs.foldl
    (fun st p =>
      (st.1 ++ [(st.2.length, p.2)], st.2 ++ [filterDictLoop topK (st.2.getD p.1 [])]))
    ([], store)

lemma selectLoopStore_aux (topK : List String) :
    ∀ (l : List (ℕ × Bool)) (acc : List (ℕ × Bool)) (store : Store),
      ∃ ext : Store,
        (l.foldl
          (fun st p =>
            (st.1 ++ [(st.2.length, p.2)], st.2 ++ [filterDictLoop topK (st.2.getD p.1 [])]))
          (acc, store)).2 = store ++ ext
  | [], acc, store => ⟨[], by simp⟩
  | p :: l, acc, store => by
    obtain ⟨ext, hext⟩ := selectLoopStore_aux topK l (acc ++ [(store.length, p.2)])
      (store ++ [filterDictLoop topK (store.getD p.1 [])])
    refine ⟨filterDictLoop topK (store.getD p.1 []) :: ext, ?_⟩
    rw [List.foldl_cons]
    rw [hext]
    simp

/-- Claim C9: the feature-selection reduction does not mutate its inputs:
after the loop, every dict present in the store before it is unchanged at its
address (all writes target the freshly allocated dicts), so every original
(feature-map, label) pair keeps its keys, counts and label. -/
theorem c9_no_mutation (topK : List String) (fsRefs : List (ℕ × Bool)) (store : Store)
    (a : ℕ) (ha : a < store.length) :
    (selectLoopStore topK fsRefs store).2.getD a [] = store.getD a [] := by
  obtain ⟨ext, hext⟩ := selectLoopStore_aux topK fsRefs [] store
  unfold selectLoopStore
  rw [hext]
  exact List.getD_append store ext [] a ha

/-- Claim C9 witness at a concrete store and featureset reference list. -/
theorem c9_no_mutation_witness :
    (selectLoopStore ["damn"] [(0, true)] [[("damn", 1), ("sunshine", 0)]]).2.getD 0 []
      = ([[("damn", 1), ("sunshine", 0)]] : Store).getD 0 [] :=
  c9_no_mutation ["damn"] [(0, true)] [[("damn", 1), ("sunshine", 0)]] 0 (by decide)

end Project5
